import Mathlib

/-!
Verification of the text-to-structured-field inference engine of
`src/proxylist.py` (ClickUp → Excel proxy-job export).

The Python source is shallowly embedded below.  Strings are modelled as
`String` / `List Char`; the regular expressions of the source are embedded
as explicit, executable scanners over `List Char` with the same
left-to-right, first-match / all-non-overlapping-matches semantics as
Python's `re.search` / `re.findall` / `re.finditer`.  Character classes
(`\w`, `\s`, `\d`, case folding) are modelled over ASCII, which covers the
alphabet the source's patterns use.  The ambient "today" and the
free-text date parser `pd.to_datetime` (a library call) are passed as
explicit parameters where the source reads the clock or calls the library;
a concrete executable model `pdDateModel` instantiates the parser where a
concrete run is evaluated.
-/

namespace ProxyList

/-! ### Character model (ASCII fragment of Python's `re` semantics) -/

/-- Model of the regex class `\d` (ASCII digits). -/
def isDigitC (c : Char) : Bool := 48 ≤ c.toNat && c.toNat ≤ 57

/-- Model of the regex class `\w` (ASCII letters, digits, underscore),
used for the word boundary `\b`. -/
def isWordC (c : Char) : Bool :=
  (65 ≤ c.toNat && c.toNat ≤ 90) || (97 ≤ c.toNat && c.toNat ≤ 122) ||
  (48 ≤ c.toNat && c.toNat ≤ 57) || c.toNat = 95

/-- Model of the regex class `\s` / `str.strip` whitespace (ASCII). -/
def isSpaceC (c : Char) : Bool :=
  c.toNat = 32 || c.toNat = 9 || c.toNat = 10 || c.toNat = 13 ||
  c.toNat = 11 || c.toNat = 12

/-- Characters stripped by `_SEP_STRIP = ^[\s:–—-]+` (whitespace, colon,
hyphen, en dash 8211, em dash 8212). -/
def isSepC (c : Char) : Bool :=
  isSpaceC c || c.toNat = 58 || c.toNat = 45 || c.toNat = 8211 || c.toNat = 8212

/-- ASCII uppercase letter test. -/
def isUpperAlphaC (c : Char) : Bool := 65 ≤ c.toNat && c.toNat ≤ 90

/-- Case-insensitive match of one pattern character `p` (the source's
patterns are written in uppercase ASCII) against a subject character `c`,
modelling `re.IGNORECASE`. -/
def chMatchCI (p c : Char) : Bool :=
  c = p || (isUpperAlphaC p && c.toNat = p.toNat + 32)

/-- ASCII upper-casing of one character, modelling `str.upper`. -/
def asciiUpper (c : Char) : Char :=
  if 97 ≤ c.toNat && c.toNat ≤ 122 then Char.ofNat (c.toNat - 32) else c

/-- ASCII lower-casing of one character, modelling `str.lower`. -/
def asciiLower (c : Char) : Char :=
  if 65 ≤ c.toNat && c.toNat ≤ 90 then Char.ofNat (c.toNat + 32) else c

/-- Shorthand: the character list of a literal pattern. -/
def strL (s : String) : List Char := s.toList

/-- Word boundary on the left of a position, given the preceding character
(`none` at the start of the subject).  All pattern tokens below start with
a word character, so `\b` there means "previous character absent or not a
word character". -/
def boundaryB : Option Char → Bool
  | none => true
  | some c => !isWordC c

/-- Word boundary on the right of a match, given the remaining subject.
All pattern tokens below end with a word character, so `\b` there means
"next character absent or not a word character". -/
def boundaryA : List Char → Bool
  | [] => true
  | c :: _ => !isWordC c

/-- Match a literal pattern case-insensitively at the head of the subject,
returning the remaining subject on success. -/
def matchCI : List Char → List Char → Option (List Char)
  | [], l => some l
  | _ :: _, [] => none
  | p :: ps, c :: cs => if chMatchCI p c then matchCI ps cs else none

/-- Does some token of `toks` match at the head of `l`, followed by a word
boundary?  Models one alternation attempt of `\b(T1|T2|...)\b` at a fixed
start position. -/
def tokenHitAt (toks : List (List Char)) (l : List Char) : Bool :=
  toks.any fun tk =>
    match matchCI tk l with
    | some r => boundaryA r
    | none => false

/-- Left-to-right scan for a word-bounded, case-insensitive occurrence of
one of `toks`; models `re.search(r"\b(T1|...)\b", s, re.IGNORECASE)`
viewed as a boolean. -/
def wbAux (toks : List (List Char)) : Option Char → List Char → Bool
  | _, [] => false
  | prev, c :: cs =>
    (boundaryB prev && tokenHitAt toks (c :: cs)) || wbAux toks (some c) cs

/-- Boolean `re.search` of a word-bounded alternation over a string. -/
def wbContains (toks : List (List Char)) (s : String) : Bool :=
  wbAux toks none s.toList

/-- The character preceding a position reached by skipping `a`, starting
from preceding character `prev`: the last character of `a` if any, else
`prev`. -/
def prevOpt (prev : Option Char) (a : List Char) : Option Char :=
  match a.getLast? with
  | some c => some c
  | none => prev

/-- Like `tokenHitAt` but with no right boundary: a "stem" occurrence
(token is a word prefix). -/
def stemHitAt (tok : List Char) (l : List Char) : Bool :=
  (matchCI tok l).isSome

/-- Scan for a stem occurrence of `tok` starting at a word boundary. -/
def stemAux (tok : List Char) : Option Char → List Char → Bool
  | _, [] => false
  | prev, c :: cs =>
    (boundaryB prev && stemHitAt tok (c :: cs)) || stemAux tok (some c) cs

/-- Does `s` contain a word-bounded stem occurrence of `tok`? -/
def containsStem (tok : List Char) (s : String) : Bool :=
  stemAux tok none s.toList

/-! ### The source's token alternations -/

/-- `BLOCKERS_ANY = \b(RANGE|WINDOW|THRU|THROUGH|TO|BETWEEN|FROM)\b`. -/
def BLOCK_TOKS : List (List Char) :=
  [strL "RANGE", strL "WINDOW", strL "THRU", strL "THROUGH",
   strL "TO", strL "BETWEEN", strL "FROM"]

/-- `BAD_TAIL_WORDS`; the optional-suffix patterns `DOCS?` and
`MATERIALS?` are expanded into both word-bounded alternatives. -/
def BAD_TAIL_TOKS : List (List Char) :=
  [strL "FILE", strL "FILES", strL "DOC", strL "DOCS", strL "PDF",
   strL "UPLOAD", strL "LINK", strL "DRAFT", strL "CHECKLIST",
   strL "NOTE", strL "NOTES", strL "TEMPLATE", strL "PACKAGE",
   strL "PKG", strL "MATERIAL", strL "MATERIALS", strL "SUBMISSION",
   strL "REPORT", strL "STATUS", strL "EMAIL"]

/-! ### Code Extractor: `extract_mc_from_text` and `find_all_brd` -/

/-- Consume exactly `n` digits from the head of the subject, returning the
digits and the remaining subject. -/
def takeDigitsN : Nat → List Char → Option (List Char × List Char)
  | 0, l => some ([], l)
  | _ + 1, [] => none
  | n + 1, c :: cs =>
    if isDigitC c then
      match takeDigitsN n cs with
      | some (ds, r) => some (c :: ds, r)
      | none => none
    else none

/-- Attempt `MCA\d{3}\b` at the head (second alternative of `mc_re`). -/
def tryMCAAt (l : List Char) : Option (List Char) :=
  match matchCI (strL "MCA") l with
  | none => none
  | some r1 =>
    match takeDigitsN 3 r1 with
    | some (_, r2) => if boundaryA r2 then some (l.take 6) else none
    | none => none

/-- Attempt `(?:MC\d{4}|MCA\d{3})\b` at the head, returning the six
matched characters; the left `\b` is checked by the caller. -/
def tryMCAt (l : List Char) : Option (List Char) :=
  match matchCI (strL "MC") l with
  | none => none
  | some r1 =>
    match takeDigitsN 4 r1 with
    | some (_, r2) => if boundaryA r2 then some (l.take 6) else tryMCAAt l
    | none => tryMCAAt l

/-- Left-to-right search for the first `mc_re` match. -/
def mcSearchAux : Option Char → List Char → Option (List Char)
  | _, [] => none
  | prev, c :: cs =>
    match (if boundaryB prev then tryMCAt (c :: cs) else none) with
    | some m => some m
    | none => mcSearchAux (some c) cs

/-- Embedding of `extract_mc_from_text`: first `MC####`/`MCA###` code in
the text, upper-cased, or `""` if none. -/
def extract_mc_from_text (text : String) : String :=
  match mcSearchAux none text.toList with
  | some m => String.mk (m.map asciiUpper)
  | none => ""

/-- Attempt `([SPZ]\d{5})\b` at the head, returning the matched group and
the remaining subject. -/
def tryBRDAt (l : List Char) : Option (List Char × List Char) :=
  match l with
  | [] => none
  | c :: cs =>
    if chMatchCI 'S' c || chMatchCI 'P' c || chMatchCI 'Z' c then
      match takeDigitsN 5 cs with
      | some (ds, r) => if boundaryA r then some (c :: ds, r) else none
      | none => none
    else none

/-- Left-to-right, non-overlapping scan for all `brd_re` matches
(`re.finditer`); after a match the scan resumes immediately after the
matched text, with the last matched character as the new preceding
character.  The structural `fuel` argument is initialized to the
subject's length; every step consumes at least one subject character per
unit of fuel, so the fuel never runs out before the subject does. -/
def brdAux : Nat → Option Char → List Char → List (List Char)
  | 0, _, _ => []
  | _ + 1, _, [] => []
  | fuel + 1, prev, c :: cs =>
    if boundaryB prev then
      match tryBRDAt (c :: cs) with
      | some (m, r) => m :: brdAux fuel (some (m.getLastD c)) r
      | none => brdAux fuel (some c) cs
    else brdAux fuel (some c) cs

/-- Embedding of `find_all_brd`: all `S#####`/`P#####`/`Z#####` codes in
order of appearance, upper-cased. -/
def find_all_brd (text : String) : List String :=
  (brdAux text.toList.length none text.toList).map fun m =>
    String.mk (m.map asciiUpper)

/-! ### Label detection: `is_exact_label` and `is_label_task_strict`

The source defines `is_label_task_strict` twice; the later definition
(lines 236-274) shadows the earlier one and is the one embedded here.
The free-text date check `pd.to_datetime(tail, errors="coerce")` is a
library call; it is passed in as an explicit parameter `pdParse`. -/

/-- Attempt `LABEL\s*DATE\b` at the head of the subject (the `\s*` run is
necessarily maximal since `DATE` starts with a non-space character);
returns the remaining subject after the match (`title[m.end():]`). -/
def tryLabelAt (label : List Char) (l : List Char) : Option (List Char) :=
  match matchCI label l with
  | none => none
  | some r1 =>
    match matchCI (strL "DATE") (r1.dropWhile isSpaceC) with
    | none => none
    | some r2 => if boundaryA r2 then some r2 else none

/-- Left-to-right search for `\bLABEL\s*DATE\b`, returning the subject
remaining after the first match. -/
def labelSearchAux (label : List Char) : Option Char → List Char → Option (List Char)
  | _, [] => none
  | prev, c :: cs =>
    match (if boundaryB prev then tryLabelAt label (c :: cs) else none) with
    | some r => some r
    | none => labelSearchAux label (some c) cs

/-- The label word selected by `kind`: `RECORD_ANY` for `"record"`,
`MEETING_ANY` otherwise (the source's `if kind == "record"`). -/
def labelFor (kind : String) : List Char :=
  if kind = "record" then strL "RECORD" else strL "MEETING"

/-- Remove trailing whitespace (`str.strip` on a string with no leading
whitespace). -/
def rtrimWS (l : List Char) : List Char := (l.reverse.dropWhile isSpaceC).reverse

/-- Strip leading whitespace and trailing whitespace (`str.strip`). -/
def stripL (l : List Char) : List Char := rtrimWS (l.dropWhile isSpaceC)

/-- The tail after the label: `_SEP_STRIP.sub("", title[m.end():]).strip()`;
after removing the leading separator run the head is not whitespace, so
the final `strip` only trims the right end. -/
def tailAfter (rest : List Char) : List Char := rtrimWS (rest.dropWhile isSepC)

/-- Embedding of `EXACT_RECORD`/`EXACT_MEETING` full-match
`^\s*LABEL\s*DATE\s*$`. -/
def exactLabelMatch (label : List Char) (l : List Char) : Bool :=
  match matchCI label (l.dropWhile isSpaceC) with
  | none => false
  | some r1 =>
    match matchCI (strL "DATE") (r1.dropWhile isSpaceC) with
    | none => false
    | some r2 => (r2.dropWhile isSpaceC).isEmpty

/-- Embedding of `is_exact_label`. -/
def is_exact_label (title kind : String) : Bool :=
  if title = "" then false else exactLabelMatch (labelFor kind) title.toList

/-- Embedding of `re.fullmatch(r"(TBD|TBA|N/?A|ASAP)", tail, re.IGNORECASE)`. -/
def placeholderMatch (tail : List Char) : Bool :=
  [strL "TBD", strL "TBA", strL "NA", strL "N/A", strL "ASAP"].any fun tk =>
    match matchCI tk tail with
    | some r => r.isEmpty
    | none => false

/-- Embedding of the operative `is_label_task_strict` (source lines
236-274).  `pdParse` models the library call
`not pd.isna(pd.to_datetime(tail, errors="coerce"))`. -/
def is_label_task_strict (pdParse : String → Bool) (title kind : String) : Bool :=
  if title = "" then false
  else if wbAux BLOCK_TOKS none title.toList then false
  else
    match labelSearchAux (labelFor kind) none title.toList with
    | none => false
    | some rest =>
      let tail := tailAfter rest
      if tail.isEmpty then true
      else if wbAux BAD_TAIL_TOKS none tail then false
      else if pdParse (String.mk tail) then true
      else placeholderMatch tail

/-! ### A concrete executable model of `pd.to_datetime` on a tail

`pd.to_datetime` accepts a large space of date formats; the model below
covers the zero-padded ISO `YYYY-MM-DD` form (the only form the pipeline
itself generates) and the `M/D/YYYY` slash form exercised by the spec's
examples, and treats everything else as unparseable.  General theorems
below quantify over the parser parameter and do not depend on this
model's negative answers. -/

/-- Numeric value of a digit list (most significant first). -/
def digitsToNat (l : List Char) : Nat :=
  l.foldl (fun a c => a * 10 + (c.toNat - 48)) 0

/-- Parse a zero-padded ISO `YYYY-MM-DD` date into the comparable key
`y * 10000 + m * 100 + d`; months and days outside `1..12` / `1..31` are
rejected (a coarse model of real calendar validation). -/
def parseIsoDateL (l : List Char) : Option Nat :=
  match l with
  | [y3, y2, y1, y0, h1, m1, m0, h2, d1, d0] =>
    if h1 = '-' && h2 = '-' && [y3, y2, y1, y0, m1, m0, d1, d0].all isDigitC then
      let y := digitsToNat [y3, y2, y1, y0]
      let mo := digitsToNat [m1, m0]
      let dy := digitsToNat [d1, d0]
      if 1 ≤ mo && mo ≤ 12 && 1 ≤ dy && dy ≤ 31 then
        some (y * 10000 + mo * 100 + dy)
      else none
    else none
  | _ => none

/-- Slash-form `M/D/YYYY` date test (one or two digits for month and day,
four for the year). -/
def slashDateOk (l : List Char) : Bool :=
  let ms := l.takeWhile isDigitC
  let rest1 := l.drop ms.length
  match rest1 with
  | '/' :: r1 =>
    let ds := r1.takeWhile isDigitC
    let rest2 := r1.drop ds.length
    (match rest2 with
     | '/' :: r2 =>
       (1 ≤ ms.length && ms.length ≤ 2 && 1 ≤ ds.length && ds.length ≤ 2 &&
        r2.length = 4 && r2.all isDigitC &&
        1 ≤ digitsToNat ms && digitsToNat ms ≤ 12 &&
        1 ≤ digitsToNat ds && digitsToNat ds ≤ 31)
     | _ => false)
  | _ => false

/-- The concrete `pd.to_datetime` model used when a run is evaluated. -/
def pdDateModel (s : String) : Bool :=
  (parseIsoDateL s.toList).isSome || slashDateOk s.toList

/-! ### Job Identifier Parser: `parse_folder_multi` -/

/-- Non-overlapping left-to-right `re.findall` of `SEP\s*(\d{n})`,
returning the captured digit groups.  On a failed attempt the scan
restarts one character later; on success it resumes after the matched
text (Python `re` semantics).  As with `brdAux`, the structural `fuel`
is initialized to the subject's length and cannot run out before the
subject does. -/
def sepDigitsFindallF (sep : Char) (n : Nat) : Nat → List Char → List (List Char)
  | 0, _ => []
  | _ + 1, [] => []
  | fuel + 1, c :: cs =>
    if c = sep then
      match takeDigitsN n (cs.dropWhile isSpaceC) with
      | some (ds, r) => ds :: sepDigitsFindallF sep n fuel r
      | none => sepDigitsFindallF sep n fuel cs
    else sepDigitsFindallF sep n fuel cs

def sepDigitsFindall (sep : Char) (n : Nat) (l : List Char) : List (List Char) :=
  sepDigitsFindallF sep n l.length l

/-- Order-preserving de-duplicating append (the source's
`seen`-set-plus-list accumulation; the set always holds exactly the
elements of the list, so a single list with a membership test models
both). -/
def dedupAppend (acc : List String) (xs : List String) : List String :=
  xs.foldl (fun a x => if x ∈ a then a else a ++ [x]) acc

/-- Leftmost match of `name_after_paren_re = \([^)]+\)\s*(.*)$` on a
newline-free subject: find the first `(` followed by a nonempty `)`-free
run and a `)`, and return everything after the closing `)` with leading
whitespace skipped (`group(1)`). -/
def innerParen (l : List Char) : Option (List Char) :=
  let run := l.takeWhile (· ≠ ')')
  if run.isEmpty then none
  else
    match l.drop run.length with
    | ')' :: r => some r
    | _ => none

def parenSearch : List Char → Option (List Char)
  | [] => none
  | c :: cs =>
    if c = '(' then
      match innerParen cs with
      | some r => some (r.dropWhile isSpaceC)
      | none => parenSearch cs
    else parenSearch cs

/-- Embedding of `trailing_paren_number_re.sub("", name)`: remove one
trailing `(\d+)\s*$` group, if present. -/
def stripTrailingParenNum (l : List Char) : List Char :=
  let r := l.reverse.dropWhile isSpaceC
  match r with
  | ')' :: r2 =>
    let ds := r2.takeWhile isDigitC
    if ds.isEmpty then l
    else
      match r2.drop ds.length with
      | '(' :: r3 => r3.reverse
      | _ => l
  | _ => none.getD l

/-- Job-name derivation on the base path (the subject is already stripped
and newline-free there): text after the first parenthesized group if any,
else the whole title; then a trailing `(number)` suffix is removed and
the result stripped. -/
def deriveJobName (t : List Char) : String :=
  let jn :=
    match parenSearch t with
    | some r => stripL r
    | none => t
  String.mk (stripL (stripTrailingParenNum jn))

/-- Does the (stripped) title begin with six digits? -/
def beginsSixDigits (t : List Char) : Bool :=
  (t.take 6).length = 6 && (t.take 6).all isDigitC

/-- Does the stripped title match `base_re = ^\s*(\d{6})(.*)$`?  With no
`re.DOTALL`, `.` does not cross a newline and `$` anchors at the end, so
the remainder must be newline-free for the pattern to match. -/
def baseOk (t : List Char) : Bool :=
  beginsSixDigits t && !(t.drop 6).contains '\n'

/-- Embedding of `parse_folder_multi`. -/
def parse_folder_multi (title : String) : List (String × String) :=
  if title = "" then []
  else
    let t := stripL title.toList
    if baseOk t then
      let baseNum := t.take 6
      let remainder := t.drop 6
      let commaNums := sepDigitsFindall ',' 6 remainder
      let pfx3 := baseNum.take 3
      let dashFull := (sepDigitsFindall '-' 3 remainder).map fun s => pfx3 ++ s
      let nums := dedupAppend [] ((baseNum :: commaNums ++ dashFull).map String.mk)
      let jobName := deriveJobName t
      nums.map fun n => (n, jobName)
    else [("", String.mk t)]

/-! ### Date Selection Policy: `pick_best_iso`

The source reads "today" from the wall clock
(`pd.Timestamp.now(tz=USER_TZ).date()`); it is passed here as the
comparable key `today = y*10000 + m*100 + d`, the same encoding
`parseIsoDateL` produces — on zero-padded ISO dates this order agrees
with chronological order. -/

/-- Python `min` of a nonempty list (`0` on the empty list, never used
there by the source). -/
def listMin : List Nat → Nat
  | [] => 0
  | [a] => a
  | a :: b :: t => Nat.min a (listMin (b :: t))

/-- Python `max` of a nonempty list. -/
def listMax : List Nat → Nat
  | [] => 0
  | [a] => a
  | a :: b :: t => Nat.max a (listMax (b :: t))

/-- The decimal digit characters. -/
def digitChar10 : Nat → Char
  | 0 => '0' | 1 => '1' | 2 => '2' | 3 => '3' | 4 => '4'
  | 5 => '5' | 6 => '6' | 7 => '7' | 8 => '8' | _ => '9'

/-- Fixed-width, zero-padded decimal rendering. -/
def numToChars : Nat → Nat → List Char
  | 0, _ => []
  | w + 1, n => numToChars w (n / 10) ++ [digitChar10 (n % 10)]

/-- Render a date key as the ISO string `date.isoformat()` produces. -/
def isoFormatN (n : Nat) : String :=
  String.mk (numToChars 4 (n / 10000) ++ '-' :: numToChars 2 (n / 100 % 100)
    ++ '-' :: numToChars 2 (n % 100))

/-- Embedding of the inner `pick(pool)` of `pick_best_iso`: parse the
pool (`errors="coerce"` drops unparseable entries), sort, then take the
earliest date ≥ today if one exists, else the latest date. -/
def pickPool (today : Nat) (pool : List String) : String :=
  if pool.isEmpty then ""
  else
    let dates := List.insertionSort (· ≤ ·)
      (pool.filterMap fun s => parseIsoDateL s.toList)
    if dates.isEmpty then ""
    else
      let future := dates.filter fun d => today ≤ d
      let chosen := if future.isEmpty then listMax dates else listMin future
      isoFormatN chosen

/-- Embedding of `pick_best_iso`. -/
def pick_best_iso (today : Nat) (candidates : List (String × Bool)) : String :=
  if candidates.isEmpty then ""
  else
    let c := pickPool today ((candidates.filter fun p => p.2).map fun p => p.1)
    if c ≠ "" then c else pickPool today (candidates.map fun p => p.1)

/-- Specification-side `pick(pool)`, following the words of the spec: of
the parseable dates, the earliest on or after today if any, otherwise the
latest past date; empty for an empty or entirely unparseable pool.  (No
sorting step; minima and maxima are taken over the unsorted pool.) -/
def pickSpec (today : Nat) (pool : List String) : String :=
  let dates := pool.filterMap fun s => parseIsoDateL s.toList
  if dates.isEmpty then ""
  else
    let future := dates.filter fun d => today ≤ d
    if future.isEmpty then isoFormatN (listMax dates)
    else isoFormatN (listMin future)

/-- Specification-side Date Selection Policy: `pick` on the open-status
candidates first, falling back to `pick` on all candidates. -/
def selectDateSpec (today : Nat) (cands : List (String × Bool)) : String :=
  let o := pickSpec today ((cands.filter fun p => p.2).map fun p => p.1)
  if o ≠ "" then o else pickSpec today (cands.map fun p => p.1)

/-! ### Date Normalizer: `iso_from_ms`

`pd.to_datetime(int(ms), unit="ms", utc=True).tz_convert(USER_TZ)` with
`USER_TZ = "America/Los_Angeles"`.  The civil-date arithmetic uses the
standard days-from-epoch conversion; the zone's offset is UTC−8h, or
UTC−7h while US daylight saving is in effect (modelled with the
post-2007 rule — second Sunday of March 10:00 UTC to first Sunday of
November 09:00 UTC — which the claims' inputs fall under; historical
transition tables are approximated by the same rule).  `int(ms)` is
modelled for optionally signed ASCII digit strings with surrounding
whitespace; a failed `int` or an out-of-`pd.Timestamp`-range value takes
the source's `except` branch and yields `none`. -/

/-- Python `int(str)` on optionally signed decimal strings (raising cases
map to `none`). -/
def parseIntPy (s : String) : Option Int :=
  let l := stripL s.toList
  match l with
  | '-' :: ds =>
    if !ds.isEmpty && ds.all isDigitC then some (-(digitsToNat ds : Int)) else none
  | '+' :: ds =>
    if !ds.isEmpty && ds.all isDigitC then some (digitsToNat ds : Int) else none
  | ds =>
    if !ds.isEmpty && ds.all isDigitC then some (digitsToNat ds : Int) else none

/-- Civil date from days since 1970-01-01 (proleptic Gregorian). -/
def civilFromDays (z : Int) : Int × Nat × Nat :=
  let zs := z + 719468
  let era := zs / 146097
  let doe := (zs - era * 146097).toNat
  let yoe := (doe - doe / 1460 + doe / 36524 - doe / 146096) / 365
  let doy := doe - (365 * yoe + yoe / 4 - yoe / 100)
  let mp := (5 * doy + 2) / 153
  let d := doy - (153 * mp + 2) / 5 + 1
  let m := if mp < 10 then mp + 3 else mp - 9
  let y := era * 400 + yoe + (if m ≤ 2 then 1 else 0)
  (y, m, d)

/-- Days since 1970-01-01 of a civil date. -/
def daysFromCivil (y : Int) (m d : Nat) : Int :=
  let yAdj := if m ≤ 2 then y - 1 else y
  let era := yAdj / 400
  let yoe := (yAdj - era * 400).toNat
  let mp := if 2 < m then m - 3 else m + 9
  let doy := (153 * mp + 2) / 5 + d - 1
  let doe := yoe * 365 + yoe / 4 - yoe / 100 + doy
  era * 146097 + (doe : Int) - 719468

/-- Day of week with Sunday = 0 (1970-01-01 was a Thursday). -/
def dowSun0 (days : Int) : Nat := ((days + 4) % 7).toNat

/-- Day of month of the `nth` Sunday of the given month. -/
def nthSundayDom (y : Int) (month nth : Nat) : Nat :=
  let w := dowSun0 (daysFromCivil y month 1)
  1 + (7 - w) % 7 + 7 * (nth - 1)

/-- UTC instant (epoch ms) at which US daylight saving starts in year `y`
(second Sunday of March, 02:00 local standard = 10:00 UTC). -/
def dstStartMs (y : Int) : Int :=
  daysFromCivil y 3 (nthSundayDom y 3 2) * 86400000 + 36000000

/-- UTC instant (epoch ms) at which US daylight saving ends in year `y`
(first Sunday of November, 02:00 local daylight = 09:00 UTC). -/
def dstEndMs (y : Int) : Int :=
  daysFromCivil y 11 (nthSundayDom y 11 1) * 86400000 + 32400000

/-- America/Los_Angeles UTC offset in ms at a UTC instant. -/
def laOffsetMs (ms : Int) : Int :=
  let y := (civilFromDays ((ms - 28800000) / 86400000)).1
  if dstStartMs y ≤ ms ∧ ms < dstEndMs y then -25200000 else -28800000

/-- Calendar date in America/Los_Angeles of a UTC epoch-ms instant,
rendered as `date.isoformat()`. -/
def msToLAIso (ms : Int) : String :=
  let c := civilFromDays ((ms + laOffsetMs ms) / 86400000)
  isoFormatN (c.1.toNat * 10000 + c.2.1 * 100 + c.2.2)

/-- Largest epoch-ms magnitude representable by `pd.Timestamp`
(int64 nanoseconds). -/
def PD_MS_BOUND : Int := 9223372036854

/-- Embedding of `iso_from_ms`: ISO calendar date of the timestamp in the
reference zone, or `none` when `int(ms)` or the timestamp conversion
raises. -/
def iso_from_ms (v : String) : Option String :=
  match parseIntPy v with
  | none => none
  | some n =>
    if -PD_MS_BOUND ≤ n ∧ n ≤ PD_MS_BOUND then some (msToLAIso n) else none

/-! ### Data model of the fetched ClickUp folder contents

Read-only snapshots of what `get_lists_in_folder` / `fetch_list_tasks`
deliver: per list a name and its tasks; per task a name, an optional
`due_date` value (a string in the API's JSON), a status type
(`status.type`, possibly absent), and custom-field values of which only
strings participate in the scan (`isinstance(val, str)`). -/

inductive CFValue where
  | str (v : String)
  | other
deriving DecidableEq, Repr

structure TaskItem where
  name : String
  due : Option String
  statusType : Option String
  customFields : List CFValue
deriving Repr

structure ListItem where
  name : String
  tasks : List TaskItem
deriving Repr

/-- Embedding of `status_is_open`:
`(t.get("status") or {}).get("type") or "open").lower() != "closed"`;
a missing status object, missing type, or empty type string all default
to `"open"`. -/
def status_is_open (t : TaskItem) : Bool :=
  let sv := match t.statusType with
    | none => "open"
    | some s => if s = "" then "open" else s
  String.mk (sv.toList.map asciiLower) ≠ "closed"

/-- The task's due date as an ISO string: `if not due_ms: continue`
(absent or empty string are falsy) then `iso_from_ms(due_ms)`. -/
def dueIso (t : TaskItem) : Option String :=
  match t.due with
  | none => none
  | some s => if s = "" then none else iso_from_ms s

/-! ### Aggregator: `scan_folder_metadata` -/

structure ScanState where
  mc : String
  brd : List String
  recE : List (String × Bool)
  recF : List (String × Bool)
  mtgE : List (String × Bool)
  mtgF : List (String × Bool)
deriving Repr

def initState : ScanState := ⟨"", [], [], [], [], []⟩

/-- First pass over the list names: codes only. -/
def scanListName (s : ScanState) (l : ListItem) : ScanState :=
  { s with
    mc := if s.mc = "" then extract_mc_from_text l.name else s.mc,
    brd := dedupAppend s.brd (find_all_brd l.name) }

/-- Custom-field handling inside the task loop: only string values are
scanned, for an MC code (first hit wins) and for BRD codes. -/
def scanCF (s : ScanState) (cf : CFValue) : ScanState :=
  match cf with
  | .str v =>
    { s with
      mc := if s.mc = "" then extract_mc_from_text v else s.mc,
      brd := dedupAppend s.brd (find_all_brd v) }
  | .other => s

/-- Date-candidate classification of one task (the part after the codes):
skipped entirely when the due date is falsy or unparseable; otherwise the
candidate joins the exact bucket of a kind, or else the strict-fuzzy
bucket. -/
def classifyDates (pdParse : String → Bool) (s : ScanState) (t : TaskItem) : ScanState :=
  match dueIso t with
  | none => s
  | some iso =>
    let isOp := status_is_open t
    let s1 :=
      if is_exact_label t.name "record" then { s with recE := s.recE ++ [(iso, isOp)] }
      else if is_label_task_strict pdParse t.name "record" then
        { s with recF := s.recF ++ [(iso, isOp)] }
      else s
    if is_exact_label t.name "meeting" then { s1 with mtgE := s1.mtgE ++ [(iso, isOp)] }
    else if is_label_task_strict pdParse t.name "meeting" then
      { s1 with mtgF := s1.mtgF ++ [(iso, isOp)] }
    else s1

/-- One task of the second pass: BRD codes from the task name (the source
extracts no MC code from task names), then the custom fields, then the
date candidates. -/
def scanTask (pdParse : String → Bool) (s : ScanState) (t : TaskItem) : ScanState :=
  let s1 := { s with brd := dedupAppend s.brd (find_all_brd t.name) }
  let s2 := t.customFields.foldl scanCF s1
  classifyDates pdParse s2 t

structure Meta where
  mc_code : String
  brd_code : String
  record_date : String
  meeting_date : String
deriving Repr

/-- Embedding of `scan_folder_metadata` applied to the fetched folder
contents: the quick pass over list names, the task pass, then the
exact-first date selection (Python `or`: the fuzzy pick is used only when
the exact pick is the empty string) and the `", "` join of the BRD codes. -/
def scan_folder_metadata (pdParse : String → Bool) (today : Nat)
    (lists : List ListItem) : Meta :=
  let s1 := lists.foldl scanListName initState
  let s2 := lists.foldl (fun s l => l.tasks.foldl (scanTask pdParse) s) s1
  let recPick := pick_best_iso today s2.recE
  let mtgPick := pick_best_iso today s2.mtgE
  { mc_code := s2.mc,
    brd_code := String.intercalate ", " s2.brd,
    record_date := if recPick ≠ "" then recPick else pick_best_iso today s2.recF,
    meeting_date := if mtgPick ≠ "" then mtgPick else pick_best_iso today s2.mtgF }

/-! ### Specification-side views of the scan (for the refinement claims) -/

/-- The string custom-field values of a task, in order. -/
def cfStrings (t : TaskItem) : List String :=
  t.customFields.filterMap fun cf =>
    match cf with
    | .str v => some v
    | .other => none

/-- All scanned texts of a folder in scan order: list names first, then
per task its name followed by its string custom fields. -/
def folderTexts (lists : List ListItem) : List String :=
  lists.map (fun l => l.name) ++
    lists.flatMap fun l => l.tasks.flatMap fun t => t.name :: cfStrings t

/-- All BRD codes of a folder in first-seen scan order, duplicates
included. -/
def allBrdCodes (lists : List ListItem) : List String :=
  (folderTexts lists).flatMap find_all_brd

/-- The exact-label date candidates of one task for a kind. -/
def exactCand (kind : String) (t : TaskItem) : List (String × Bool) :=
  match dueIso t with
  | none => []
  | some iso => if is_exact_label t.name kind then [(iso, status_is_open t)] else []

/-- The strict-fuzzy (and not exact) date candidates of one task for a
kind (the `elif` branch). -/
def fuzzyCand (pdParse : String → Bool) (kind : String) (t : TaskItem) :
    List (String × Bool) :=
  match dueIso t with
  | none => []
  | some iso =>
    if is_exact_label t.name kind then []
    else if is_label_task_strict pdParse t.name kind then [(iso, status_is_open t)]
    else []

/-- A candidate pool gathered over the whole folder in task order. -/
def folderPool (f : TaskItem → List (String × Bool)) (lists : List ListItem) :
    List (String × Bool) :=
  lists.flatMap fun l => l.tasks.flatMap f

/-! ### Final row ordering (`df.sort_values(["Job Number", "Job Name"])`)

The job number and job name columns hold Python `str` values (the empty
string for a missing number, never NaN, so `na_position="last"` has no
effect); `sort_values` orders rows by the ascending lexicographic
comparison of the string pair. -/

/-- Python's `str` comparison: code-point lexicographic order. -/
def keyLT : List Char → List Char → Bool
  | [], [] => false
  | [], _ :: _ => true
  | _ :: _, [] => false
  | a :: as, b :: bs => a.toNat < b.toNat || (a = b && keyLT as bs)

/-- Ascending pandas ordering on the (job number, job name) key pair. -/
def rowKeyLE (a b : String × String) : Prop :=
  (keyLT a.1.toList b.1.toList ||
    (a.1.toList == b.1.toList &&
      (keyLT a.2.toList b.2.toList || a.2.toList == b.2.toList))) = true

instance : DecidableRel rowKeyLE := fun a b => by
  unfold rowKeyLE; infer_instance

/-- The sorted final row set (keys only). -/
def sortRows (rows : List (String × String)) : List (String × String) :=
  List.insertionSort rowKeyLE rows

/-! ### Adjournment handling (modelled from the spec)

Modelled from the spec: `src/proxylist.py` is one iteration of the
script and contains no adjournment handling; the spec (§3, §4.3, §4.6)
describes the refined variant in which `adjournment_date` is a third
date field whose label matcher additionally accepts titles containing
both a stem of "ADJOURN" and a stem of "MEETING" anywhere. -/

/-- Modelled from the spec: exact `"ADJOURNMENT DATE"` / `"ADJOURN DATE"`
label test for the adjournment kind. -/
def is_exact_adj (title : String) : Bool :=
  if title = "" then false
  else exactLabelMatch (strL "ADJOURNMENT") title.toList ||
    exactLabelMatch (strL "ADJOURN") title.toList

/-- Modelled from the spec: `ADJOURNMENT\s*DATE\b` / `ADJOURN\s*DATE\b`
attempt at one position (longer label first). -/
def tryAdjAt (l : List Char) : Option (List Char) :=
  match tryLabelAt (strL "ADJOURNMENT") l with
  | some r => some r
  | none => tryLabelAt (strL "ADJOURN") l

/-- Modelled from the spec: left-to-right search for the adjournment
label. -/
def adjSearchAux : Option Char → List Char → Option (List Char)
  | _, [] => none
  | prev, c :: cs =>
    match (if boundaryB prev then tryAdjAt (c :: cs) else none) with
    | some r => some r
    | none => adjSearchAux (some c) cs

/-- Modelled from the spec: the adjournment label matcher — the usual
exact / label-plus-tail rules of §4.3, plus acceptance of any title
containing both a stem of "ADJOURN" and a stem of "MEETING". -/
def is_adjourn_label (pdParse : String → Bool) (title : String) : Bool :=
  if title = "" then false
  else if containsStem (strL "ADJOURN") title && containsStem (strL "MEETING") title then
    true
  else if wbAux BLOCK_TOKS none title.toList then false
  else
    match adjSearchAux none title.toList with
    | none => false
    | some rest =>
      let tail := tailAfter rest
      if tail.isEmpty then true
      else if wbAux BAD_TAIL_TOKS none tail then false
      else if pdParse (String.mk tail) then true
      else placeholderMatch tail

/-- Modelled from the spec: exact-label adjournment candidates of a task. -/
def adjExactCand (t : TaskItem) : List (String × Bool) :=
  match dueIso t with
  | none => []
  | some iso => if is_exact_adj t.name then [(iso, status_is_open t)] else []

/-- Modelled from the spec: fuzzy adjournment candidates of a task. -/
def adjFuzzyCand (pdParse : String → Bool) (t : TaskItem) : List (String × Bool) :=
  match dueIso t with
  | none => []
  | some iso =>
    if is_exact_adj t.name then []
    else if is_adjourn_label pdParse t.name then [(iso, status_is_open t)]
    else []

/-- Modelled from the spec: the selected adjournment date of a folder —
the same exact-first, `pick_best_iso`-based selection as the record and
meeting fields. -/
def adjSelect (pdParse : String → Bool) (today : Nat) (lists : List ListItem) : String :=
  let e := pick_best_iso today (folderPool adjExactCand lists)
  if e ≠ "" then e else pick_best_iso today (folderPool (adjFuzzyCand pdParse) lists)

/-- Modelled from the spec: one output JobRecord per job identifier pair,
with the three date fields. -/
structure JobRecordA where
  job_number : String
  job_name : String
  classification_code_a : String
  classification_code_b : String
  record_date : String
  meeting_date : String
  adjournment_date : String
deriving Repr, DecidableEq, Inhabited

/-- Modelled from the spec: the rows a container contributes, each
carrying the shared codes and the three selected dates. -/
def buildRowsAdj (pdParse : String → Bool) (today : Nat) (title : String)
    (lists : List ListItem) : List JobRecordA :=
  let m := scan_folder_metadata pdParse today lists
  (parse_folder_multi title).map fun p =>
    { job_number := p.1, job_name := p.2,
      classification_code_a := m.mc_code,
      classification_code_b := m.brd_code,
      record_date := m.record_date,
      meeting_date := m.meeting_date,
      adjournment_date := adjSelect pdParse today lists }

/-! ### Specification-side helpers for the scan characterization -/

/-- First-hit-wins MC accumulation step (`if not meta["mc_code"]: ...`). -/
def mcStep (m v : String) : String := if m = "" then extract_mc_from_text v else m

/-- The BRD codes one task contributes, in scan order: task name first,
then the string custom fields. -/
def tBrd (t : TaskItem) : List String :=
  find_all_brd t.name ++ (cfStrings t).flatMap find_all_brd

/-- The MC accumulator after one task's custom fields. -/
def taskMC (m : String) (t : TaskItem) : String := (cfStrings t).foldl mcStep m

/-! ### Concrete test fixtures -/

/-- Fixture: a folder whose only MC code occurs in a task name. -/
def folderMCInTaskName : List ListItem :=
  [{ name := "",
     tasks := [{ name := "MC1234 kickoff", due := none,
                 statusType := some "open", customFields := [] }] }]

/-- Fixture: an exact-label record task (closed, far date) next to a
fuzzy-label record task (open, near date).  The due values are the
epoch-ms of 2099-01-01 20:00 UTC and 2025-06-01 20:00 UTC. -/
def folderExactVsFuzzy : List ListItem :=
  [{ name := "Lists",
     tasks := [{ name := "Record Date", due := some "4070980800000",
                 statusType := some "closed", customFields := [] },
               { name := "Record Date: TBD", due := some "1748808000000",
                 statusType := some "open", customFields := [] }] }]

/-- Fixture: a record-label task whose due value is unparseable. -/
def folderUnparseableDue : List ListItem :=
  [{ name := "",
     tasks := [{ name := "Record Date", due := some "soon",
                 statusType := some "open", customFields := [] }] }]

/-- Fixture: an adjournment-label task (open, 2025-06-01 due). -/
def folderAdj : List ListItem :=
  [{ name := "",
     tasks := [{ name := "Meeting Adjourned Date", due := some "1748808000000",
                 statusType := some "open", customFields := [] }] }]

/-! ## Theorems -/

theorem takeDigitsN_spec {n : Nat} {l ds r : List Char}
    (h : takeDigitsN n l = some (ds, r)) : l = ds ++ r ∧ ds.length = n := by
  induction n generalizing l ds r with
  | zero => simp [takeDigitsN] at h; simp [h.1, h.2]
  | succ n ih =>
    match l with
    | [] => simp [takeDigitsN] at h
    | c :: cs =>
      simp only [takeDigitsN] at h
      split at h
      · match h2 : takeDigitsN n cs with
        | some (ds2, r2) =>
          rw [h2] at h
          simp at h
          obtain ⟨hds, hr⟩ := h
          obtain ⟨hcs, hlen⟩ := ih h2
          subst hds hr
          simp [hcs, hlen]
        | none => rw [h2] at h; simp at h
      · simp at h

/-! ### Permutation invariance of `min`/`max`, and `pick = pickSpec` -/

theorem listMin_cons_ne {a : Nat} {t : List Nat} (h : t ≠ []) :
    listMin (a :: t) = Nat.min a (listMin t) := by
  match t with
  | [] => exact absurd rfl h
  | b :: t2 => rfl

theorem listMax_cons_ne {a : Nat} {t : List Nat} (h : t ≠ []) :
    listMax (a :: t) = Nat.max a (listMax t) := by
  match t with
  | [] => exact absurd rfl h
  | b :: t2 => rfl

theorem listMin_perm {l1 l2 : List Nat} (p : l1.Perm l2) : listMin l1 = listMin l2 := by
  induction p with
  | nil => rfl
  | cons a p ih =>
    rename_i t1 t2
    match t1, t2, p with
    | [], [], _ => rfl
    | [], b :: t, hp => exact absurd hp.symm.eq_nil (by simp)
    | b :: t, [], hp => exact absurd hp.eq_nil (by simp)
    | b :: t, c :: u, hp =>
      rw [@listMin_cons_ne a (b :: t) (by simp), @listMin_cons_ne a (c :: u) (by simp), ih]
  | swap a b l =>
    match l with
    | [] =>
      simp only [listMin]
      simp only [Nat.min_def]
      split_ifs <;> omega
    | c :: u =>
      rw [@listMin_cons_ne b (a :: c :: u) (by simp), @listMin_cons_ne a (c :: u) (by simp),
        @listMin_cons_ne a (b :: c :: u) (by simp), @listMin_cons_ne b (c :: u) (by simp)]
      simp only [Nat.min_def]
      split_ifs <;> omega
  | trans _ _ ih1 ih2 => exact ih1.trans ih2

theorem listMax_perm {l1 l2 : List Nat} (p : l1.Perm l2) : listMax l1 = listMax l2 := by
  induction p with
  | nil => rfl
  | cons a p ih =>
    rename_i t1 t2
    match t1, t2, p with
    | [], [], _ => rfl
    | [], b :: t, hp => exact absurd hp.symm.eq_nil (by simp)
    | b :: t, [], hp => exact absurd hp.eq_nil (by simp)
    | b :: t, c :: u, hp =>
      rw [@listMax_cons_ne a (b :: t) (by simp), @listMax_cons_ne a (c :: u) (by simp), ih]
  | swap a b l =>
    match l with
    | [] =>
      simp only [listMax]
      simp only [Nat.max_def]
      split_ifs <;> omega
    | c :: u =>
      rw [@listMax_cons_ne b (a :: c :: u) (by simp), @listMax_cons_ne a (c :: u) (by simp),
        @listMax_cons_ne a (b :: c :: u) (by simp), @listMax_cons_ne b (c :: u) (by simp)]
      simp only [Nat.max_def]
      split_ifs <;> omega
  | trans _ _ ih1 ih2 => exact ih1.trans ih2

theorem perm_isEmpty {a : Type} {l1 l2 : List a} (p : l1.Perm l2) :
    l1.isEmpty = l2.isEmpty := by
  have := p.length_eq
  cases l1 <;> cases l2 <;> simp_all

theorem pickPool_eq_pickSpec (today : Nat) (pool : List String) :
    pickPool today pool = pickSpec today pool := by
  unfold pickPool pickSpec
  by_cases hp : pool = []
  · subst hp; simp
  · have hne : pool.isEmpty = false := by
      cases pool
      · exact absurd rfl hp
      · rfl
    rw [hne]
    simp only [Bool.false_eq_true, if_false]
    have hperm : (List.insertionSort (· ≤ ·)
        (pool.filterMap fun s => parseIsoDateL s.toList)).Perm
        (pool.filterMap fun s => parseIsoDateL s.toList) :=
      List.perm_insertionSort _ _
    rw [perm_isEmpty hperm]
    by_cases hd : (pool.filterMap fun s => parseIsoDateL s.toList).isEmpty
    · rw [hd]; simp
    · have hd2 : (pool.filterMap fun s => parseIsoDateL s.toList).isEmpty = false := by
        simpa using hd
      rw [hd2]
      simp only [Bool.false_eq_true, if_false]
      have hfperm := hperm.filter (fun d => decide (today ≤ d))
      rw [perm_isEmpty hfperm]
      by_cases hf : ((pool.filterMap fun s => parseIsoDateL s.toList).filter
          (fun d => decide (today ≤ d))).isEmpty
      · rw [hf]
        simp only [if_true]
        rw [listMax_perm hperm]
      · have hf2 : ((pool.filterMap fun s => parseIsoDateL s.toList).filter
            (fun d => decide (today ≤ d))).isEmpty = false := by simpa using hf
        rw [hf2]
        simp only [Bool.false_eq_true, if_false]
        rw [listMin_perm hfperm]

/-- C1: the Date Selection Policy tries `pick` on the open-status
candidates and falls back to `pick` over all candidates; `pick` selects
the earliest parseable date on or after today, else the latest past date,
and is empty on an empty or unparseable pool (`selectDateSpec`/`pickSpec`
state this per the spec's words).  On the spec's example with today =
2025-03-01 the policy selects 2025-06-01. -/
theorem C1_date_selection_policy :
    (∀ today cands, pick_best_iso today cands = selectDateSpec today cands) ∧
    pick_best_iso 20250301
      [("2025-01-01", false), ("2025-06-01", true), ("2099-01-01", true)]
      = "2025-06-01" := by
  constructor
  · intro today cands
    unfold pick_best_iso selectDateSpec
    by_cases h : cands = []
    · subst h
      simp [pickPool_eq_pickSpec, pickSpec]
    · have hne : cands.isEmpty = false := by simpa using h
      rw [hne]
      simp only [Bool.false_eq_true, if_false, pickPool_eq_pickSpec]
  · decide

/-! ### C3: classification code A and the scan order -/

/-- C3: contrary to the claim (and to the function's own docstring
"lists -> tasks -> CF strings"), the task loop of `scan_folder_metadata`
extracts MC codes only from custom-field strings, never from task-name
text: a folder whose only MC code sits in a task name yields an empty
`mc_code`, although the family-A extractor does match that task name. -/
theorem C3_mc_task_names_not_scanned :
    extract_mc_from_text "MC1234 kickoff" = "MC1234" ∧
    (scan_folder_metadata pdDateModel 20250301 folderMCInTaskName).mc_code = "" := by
  constructor
  · rfl
  · rfl

/-! ### C5: fallback row for titles not starting with six digits -/

/-- C5 counterexample: the empty title does not begin with six digits,
yet `parse_folder_multi` returns zero rows for it, not the single
fallback row `("", "")` the claim requires. -/
theorem C5_empty_title_no_row :
    parse_folder_multi "" = [] ∧ parse_folder_multi "" ≠ [("", "")] := by
  constructor
  · rfl
  · decide

/-- C5 (amended): every NONEMPTY container title whose trimmed form does
not begin with six digits yields exactly one row, with empty job number
and the full trimmed title as job name. -/
theorem C5_fallback_single_row (title : String) (h1 : title ≠ "")
    (h2 : beginsSixDigits (stripL title.toList) = false) :
    parse_folder_multi title = [("", String.mk (stripL title.toList))] := by
  have hb : baseOk (stripL title.toList) = false := by
    unfold baseOk
    rw [h2]
    rfl
  unfold parse_folder_multi
  rw [if_neg h1]
  simp only [hb, Bool.false_eq_true, if_false]

/-- C5 witness: the amended theorem applied to a concrete irregular
title. -/
theorem C5_fallback_single_row_witness :
    "Fund ABC" ≠ "" ∧ beginsSixDigits (stripL (strL "Fund ABC")) = false ∧
    parse_folder_multi "Fund ABC" = [("", "Fund ABC")] := by
  refine ⟨by decide, by decide, ?_⟩
  have h := C5_fallback_single_row "Fund ABC" (by decide) (by decide)
  rw [h]
  decide

/-! ### C8: ordering of rows lacking a job number -/

/-- C8: contrary to the claim, rows whose job number is the empty string
sort FIRST under the source's
`df.sort_values(["Job Number", "Job Name"], na_position="last")`:
the columns hold Python strings, `""` is not NaN, so `na_position` never
applies and `""` precedes every nonempty string in ascending order. -/
theorem C8_empty_job_number_sorts_first :
    sortRows [("123456", "Beta"), ("", "Alpha")]
      = [("", "Alpha"), ("123456", "Beta")] := by
  decide

/-! ### C4: dash-suffix job numbers -/

theorem isDigitC_not_space {c : Char} (h : isDigitC c = true) : isSpaceC c = false := by
  unfold isDigitC at h
  unfold isSpaceC
  simp only [Bool.and_eq_true, decide_eq_true_eq] at h
  simp only [Bool.or_eq_false_iff, decide_eq_false_iff_not]
  omega

theorem takeDigitsN_digits {n : Nat} {l ds r : List Char}
    (h : takeDigitsN n l = some (ds, r)) : ds.all isDigitC = true := by
  induction n generalizing l ds r with
  | zero => simp [takeDigitsN] at h; simp [h.1]
  | succ n ih =>
    match l with
    | [] => simp [takeDigitsN] at h
    | c :: cs =>
      simp only [takeDigitsN] at h
      split at h
      · match h2 : takeDigitsN n cs with
        | some (ds2, r2) =>
          rw [h2] at h
          simp at h
          obtain ⟨hds, hr⟩ := h
          subst hds
          simp_all [List.all_cons, ih h2]
        | none => rw [h2] at h; simp at h
      · simp at h

theorem takeDigitsN_append {ds v : List Char} (hdig : ds.all isDigitC = true) :
    takeDigitsN ds.length (ds ++ v) = some (ds, v) := by
  induction ds with
  | nil => simp [takeDigitsN]
  | cons c cs ih =>
    simp only [List.all_cons, Bool.and_eq_true] at hdig
    simp only [List.length_cons, List.cons_append, takeDigitsN, hdig.1, if_true,
      List.append_eq, ih hdig.2]

/-- Splitting an append at a distinguished element not occurring in the
left part. -/
theorem append_eq_split {p s l1 l2 : List Char} {a : Char}
    (h : p ++ s = l1 ++ a :: l2) (hna : a ∉ p) :
    ∃ m, s = m ++ a :: l2 ∧ l1 = p ++ m := by
  induction p generalizing l1 with
  | nil => exact ⟨l1, by simpa using h, by simp⟩
  | cons x p2 ih =>
    match l1, h with
    | [], h =>
      simp only [List.cons_append, List.nil_append] at h
      injection h with h1 h2
      have hxa : a ∈ x :: p2 := by
        rw [← h1]
        exact List.mem_cons_self x p2
      exact absurd hxa hna
    | y :: l12, h =>
      simp only [List.cons_append] at h
      injection h with h1 h2
      obtain ⟨m, hs, hl⟩ := ih h2 (fun hm => hna (List.mem_cons_of_mem x hm))
      exact ⟨m, hs, by simp [← h1, hl]⟩

/-- Head case of the completeness argument: a separator at the head,
directly followed by exactly `n` digits, always produces those digits as
the first capture. -/
theorem sepDigitsFindallF_head {sep : Char} {n : Nat} (hn : n ≠ 0)
    {ds v : List Char} (hlen : ds.length = n) (hdig : ds.all isDigitC = true)
    (fuel : Nat) :
    sepDigitsFindallF sep n (fuel + 1) (sep :: (ds ++ v))
      = ds :: sepDigitsFindallF sep n fuel v := by
  match ds with
  | [] => exact absurd hlen.symm hn
  | d :: ds2 =>
    have hd : isDigitC d = true := by
      simp only [List.all_cons, Bool.and_eq_true] at hdig
      exact hdig.1
    have hdw : ((d :: ds2) ++ v).dropWhile isSpaceC = (d :: ds2) ++ v := by
      rw [List.cons_append, List.dropWhile_cons_of_neg]
      simp [isDigitC_not_space hd]
    have htd := @takeDigitsN_append (d :: ds2) v hdig
    rw [hlen] at htd
    simp only [sepDigitsFindallF, if_pos rfl]
    rw [hdw, htd]
    simp

/-- Completeness of the `findall` scan: every place in the subject where
the separator is directly followed by exactly `n` digits (bounded on the
right by a non-digit or the end) contributes its digit group to the
result, regardless of other (possibly overlapping) matches. -/
theorem sepDigitsFindall_complete {sep : Char}
    (hsd : isDigitC sep = false) (hss : isSpaceC sep = false)
    {n : Nat} (hn : n ≠ 0) :
    ∀ (fuel : Nat) (u rem ds v : List Char), rem.length ≤ fuel →
      rem = u ++ sep :: (ds ++ v) → ds.length = n → ds.all isDigitC = true →
      (v = [] ∨ ∃ c w, v = c :: w ∧ isDigitC c = false) →
      ds ∈ sepDigitsFindallF sep n fuel rem := by
  intro fuel
  induction fuel with
  | zero =>
    intro u rem ds v hk hrem hlen hdig hv
    subst hrem
    simp at hk
  | succ f ih =>
    intro u rem ds v hk hrem hlen hdig hv
    match u with
    | [] =>
      subst hrem
      simp only [List.nil_append]
      rw [sepDigitsFindallF_head hn hlen hdig f]
      exact List.mem_cons_self _ _
    | x :: u2 =>
      have hrem2 : rem = x :: (u2 ++ sep :: (ds ++ v)) := by simpa using hrem
      subst hrem2
      have hk2 : (u2 ++ sep :: (ds ++ v)).length ≤ f := by
        simp only [List.length_cons] at hk
        omega
      by_cases hx : x = sep
      · subst hx
        match htd : takeDigitsN n ((u2 ++ x :: (ds ++ v)).dropWhile isSpaceC) with
        | none =>
          simp only [sepDigitsFindallF, if_pos rfl, htd]
          exact ih u2 _ ds v hk2 rfl hlen hdig hv
        | some (ds2, r) =>
          simp only [sepDigitsFindallF, if_pos rfl, htd]
          obtain ⟨hsplit, hlen2⟩ := takeDigitsN_spec htd
          have hdig2 := takeDigitsN_digits htd
          have hcs2 : (u2 ++ x :: (ds ++ v)).takeWhile isSpaceC ++ ds2 ++ r
              = u2 ++ x :: (ds ++ v) := by
            rw [List.append_assoc, ← hsplit, List.takeWhile_append_dropWhile]
          have hnmem : x ∉ (u2 ++ x :: (ds ++ v)).takeWhile isSpaceC ++ ds2 := by
            intro hm
            rcases List.mem_append.1 hm with hm1 | hm2
            · have := List.mem_takeWhile_imp hm1
              rw [hss] at this
              exact absurd this (by simp)
            · have hdx : isDigitC x = true := by
                have hall := hdig2
                rw [List.all_eq_true] at hall
                exact hall x (by simpa using hm2)
              rw [hsd] at hdx
              exact absurd hdx (by simp)
          obtain ⟨m, hr, hu2⟩ := append_eq_split hcs2 hnmem
          have hrlen : r.length ≤ f := by
            have h1 := congrArg List.length hcs2
            simp only [List.length_append, List.length_cons] at h1 hk2 ⊢
            omega
          exact List.mem_cons_of_mem _ (ih m r ds v hrlen hr hlen hdig hv)
      · simp only [sepDigitsFindallF, if_neg hx]
        exact ih u2 _ ds v hk2 rfl hlen hdig hv

theorem mem_dedupAppend {x : String} : ∀ (xs acc : List String),
    (x ∈ acc ∨ x ∈ xs) → x ∈ dedupAppend acc xs := by
  intro xs
  induction xs with
  | nil => intro acc h; simpa [dedupAppend] using h.resolve_right (by simp)
  | cons y ys ih =>
    intro acc h
    have hstep : dedupAppend acc (y :: ys)
        = dedupAppend (if y ∈ acc then acc else acc ++ [y]) ys := rfl
    rw [hstep]
    have hy : y ∈ (if y ∈ acc then acc else acc ++ [y]) := by
      split
      · assumption
      · simp
    have hsub : ∀ z, z ∈ acc → z ∈ (if y ∈ acc then acc else acc ++ [y]) := by
      intro z hz
      split
      · exact hz
      · simp [hz]
    rcases h with hacc | hxs
    · exact ih _ (Or.inl (hsub x hacc))
    · rcases List.mem_cons.1 hxs with hxy | hys
      · exact ih _ (Or.inl (hxy ▸ hy))
      · exact ih _ (Or.inr hys)

/-- C4: for every container title whose trimmed form begins with a
six-digit base number (with a newline-free remainder, as `base_re`'s
`(.*)$` requires), every place where the remainder has a hyphen directly
followed by exactly three digits synthesizes the job number made of the
base number's first three digits and that suffix. -/
theorem C4_dash_suffix_numbers (title : String) (base rem u ds v : List Char)
    (hstrip : stripL title.toList = base ++ rem)
    (hbase6 : base.length = 6) (hbdig : base.all isDigitC = true)
    (hnl : rem.contains '\n' = false)
    (hrem : rem = u ++ '-' :: (ds ++ v))
    (hds3 : ds.length = 3) (hdig : ds.all isDigitC = true)
    (hv : v = [] ∨ ∃ c w, v = c :: w ∧ isDigitC c = false) :
    String.mk (base.take 3 ++ ds) ∈ (parse_folder_multi title).map fun p => p.1 := by
  have htne : title ≠ "" := by
    intro h
    rw [h] at hstrip
    have : base ++ rem = [] := by simpa [stripL, rtrimWS] using hstrip.symm
    have := congrArg List.length this
    simp [hbase6] at this
  have htake : (base ++ rem).take 6 = base := by
    rw [← hbase6, List.take_left]
  have hdrop : (base ++ rem).drop 6 = rem := by
    rw [← hbase6, List.drop_left]
  have hbOk : baseOk (stripL title.toList) = true := by
    unfold baseOk beginsSixDigits
    rw [hstrip, htake, hdrop, hbase6, hbdig, hnl]
    rfl
  have hbOk2 : baseOk (base ++ rem) = true := by rw [← hstrip]; exact hbOk
  unfold parse_folder_multi
  rw [if_neg htne]
  simp only [hstrip, hbOk2, if_true, htake, hdrop]
  have hmem : ds ∈ sepDigitsFindall '-' 3 rem :=
    sepDigitsFindall_complete (by rfl) (by rfl) (by simp) rem.length u rem ds v
      (Nat.le_refl _) hrem hds3 hdig hv
  have hmem2 : base.take 3 ++ ds ∈ (sepDigitsFindall '-' 3 rem).map
      fun s => base.take 3 ++ s :=
    List.mem_map_of_mem _ hmem
  have hmem3 : String.mk (base.take 3 ++ ds) ∈
      ((base :: sepDigitsFindall ',' 6 rem ++ (sepDigitsFindall '-' 3 rem).map
        fun s => base.take 3 ++ s).map String.mk) := by
    apply List.mem_map_of_mem
    simp only [List.mem_cons, List.mem_append]
    tauto
  have hmem4 := mem_dedupAppend _ [] (Or.inr hmem3)
  exact List.mem_map.2 ⟨(String.mk (base.take 3 ++ ds), _),
    List.mem_map_of_mem _ hmem4, rfl⟩

/-- C4 witness: title `"123456-789"` synthesizes `123789`. -/
theorem C4_dash_suffix_numbers_witness :
    "123789" ∈ (parse_folder_multi "123456-789").map fun p => p.1 := by
  have h := C4_dash_suffix_numbers "123456-789" (strL "123456") (strL "-789")
    [] (strL "789") [] (by decide) (by decide) (by decide) (by decide)
    (by decide) (by decide) (by decide) (Or.inl rfl)
  simpa using h

/-! ### Characterization of the scan state (towards C6 and C10) -/

theorem dedupAppend_append (acc l1 l2 : List String) :
    dedupAppend (dedupAppend acc l1) l2 = dedupAppend acc (l1 ++ l2) := by
  simp [dedupAppend, List.foldl_append]

theorem dedupAppend_nodup : ∀ (xs acc : List String), acc.Nodup →
    (dedupAppend acc xs).Nodup := by
  intro xs
  induction xs with
  | nil => intro acc h; exact h
  | cons y ys ih =>
    intro acc h
    have hstep : (if y ∈ acc then acc else acc ++ [y]).Nodup := by
      split
      · exact h
      · rename_i hy
        refine List.Nodup.append h (List.nodup_singleton y) ?_
        intro a ha hb
        simp only [List.mem_singleton] at hb
        subst hb
        exact hy ha
    exact ih _ hstep

/-- The custom-field loop of one task, as a record update. -/
theorem cfFold_state (cfs : List CFValue) : ∀ s : ScanState,
    cfs.foldl scanCF s =
      { s with
        mc := (cfs.filterMap fun cf => match cf with
          | .str v => some v
          | .other => none).foldl mcStep s.mc,
        brd := dedupAppend s.brd ((cfs.filterMap fun cf => match cf with
          | .str v => some v
          | .other => none).flatMap find_all_brd) } := by
  induction cfs with
  | nil => intro s; rfl
  | cons cf cfs ih =>
    intro s
    match cf with
    | .str v =>
      simp only [List.foldl_cons, List.filterMap_cons]
      rw [ih]
      simp only [scanCF, List.foldl_cons, List.flatMap_cons, mcStep,
        ← dedupAppend_append]
    | .other =>
      simp only [List.foldl_cons, List.filterMap_cons]
      rw [ih]
      rfl

/-- One task of the second pass, as a record update. -/
theorem scanTask_state (pdParse : String → Bool) (s : ScanState) (t : TaskItem) :
    scanTask pdParse s t =
      { mc := taskMC s.mc t,
        brd := dedupAppend s.brd (tBrd t),
        recE := s.recE ++ exactCand "record" t,
        recF := s.recF ++ fuzzyCand pdParse "record" t,
        mtgE := s.mtgE ++ exactCand "meeting" t,
        mtgF := s.mtgF ++ fuzzyCand pdParse "meeting" t } := by
  unfold scanTask
  dsimp only
  rw [cfFold_state]
  unfold classifyDates taskMC cfStrings tBrd exactCand fuzzyCand
  match hdue : dueIso t with
  | none => simp [cfStrings, dedupAppend_append]
  | some iso =>
    simp only []
    by_cases hre : is_exact_label t.name "record" = true
    · simp only [hre, if_true]
      by_cases hme : is_exact_label t.name "meeting" = true
      · simp [hme, cfStrings, dedupAppend_append]
      · simp only [Bool.not_eq_true] at hme
        simp only [hme, Bool.false_eq_true, if_false]
        by_cases hmf : is_label_task_strict pdParse t.name "meeting" = true
        · simp [hmf, cfStrings, dedupAppend_append]
        · simp only [Bool.not_eq_true] at hmf
          simp [hmf, cfStrings, dedupAppend_append]
    · simp only [Bool.not_eq_true] at hre
      simp only [hre, Bool.false_eq_true, if_false]
      by_cases hrf : is_label_task_strict pdParse t.name "record" = true
      · simp only [hrf, if_true]
        by_cases hme : is_exact_label t.name "meeting" = true
        · simp [hme, cfStrings, dedupAppend_append]
        · simp only [Bool.not_eq_true] at hme
          simp only [hme, Bool.false_eq_true, if_false]
          by_cases hmf : is_label_task_strict pdParse t.name "meeting" = true
          · simp [hmf, cfStrings, dedupAppend_append]
          · simp only [Bool.not_eq_true] at hmf
            simp [hmf, cfStrings, dedupAppend_append]
      · simp only [Bool.not_eq_true] at hrf
        simp only [hrf, Bool.false_eq_true, if_false]
        by_cases hme : is_exact_label t.name "meeting" = true
        · simp [hme, cfStrings, dedupAppend_append]
        · simp only [Bool.not_eq_true] at hme
          simp only [hme, Bool.false_eq_true, if_false]
          by_cases hmf : is_label_task_strict pdParse t.name "meeting" = true
          · simp [hmf, cfStrings, dedupAppend_append]
          · simp only [Bool.not_eq_true] at hmf
            simp [hmf, cfStrings, dedupAppend_append]

/-- The whole task pass over one list's tasks, as a record update. -/
theorem tasksFold_state (pdParse : String → Bool) (ts : List TaskItem) :
    ∀ s : ScanState,
    ts.foldl (scanTask pdParse) s =
      { mc := ts.foldl taskMC s.mc,
        brd := dedupAppend s.brd (ts.flatMap tBrd),
        recE := s.recE ++ ts.flatMap (exactCand "record"),
        recF := s.recF ++ ts.flatMap (fuzzyCand pdParse "record"),
        mtgE := s.mtgE ++ ts.flatMap (exactCand "meeting"),
        mtgF := s.mtgF ++ ts.flatMap (fuzzyCand pdParse "meeting") } := by
  induction ts with
  | nil => intro s; simp [dedupAppend]
  | cons t ts ih =>
    intro s
    simp only [List.foldl_cons, List.flatMap_cons]
    rw [scanTask_state, ih]
    simp [dedupAppend_append, List.append_assoc]

/-- The whole second pass, as a record update. -/
theorem pass2_state (pdParse : String → Bool) (lists : List ListItem) :
    ∀ s : ScanState,
    lists.foldl (fun s l => l.tasks.foldl (scanTask pdParse) s) s =
      { mc := lists.foldl (fun m l => l.tasks.foldl taskMC m) s.mc,
        brd := dedupAppend s.brd
          (lists.flatMap fun l => l.tasks.flatMap tBrd),
        recE := s.recE ++ folderPool (exactCand "record") lists,
        recF := s.recF ++ folderPool (fuzzyCand pdParse "record") lists,
        mtgE := s.mtgE ++ folderPool (exactCand "meeting") lists,
        mtgF := s.mtgF ++ folderPool (fuzzyCand pdParse "meeting") lists } := by
  induction lists with
  | nil => intro s; simp [folderPool, dedupAppend]
  | cons l ls ih =>
    intro s
    simp only [List.foldl_cons, List.flatMap_cons, folderPool]
    rw [tasksFold_state, ih]
    simp [dedupAppend_append, List.append_assoc, folderPool]

/-- The first (list-name) pass, as a record update. -/
theorem pass1_state (lists : List ListItem) : ∀ s : ScanState,
    lists.foldl scanListName s =
      { s with
        mc := lists.foldl (fun m l => mcStep m l.name) s.mc,
        brd := dedupAppend s.brd (lists.flatMap fun l => find_all_brd l.name) } := by
  induction lists with
  | nil => intro s; rfl
  | cons l ls ih =>
    intro s
    simp only [List.foldl_cons, List.flatMap_cons]
    rw [ih]
    simp only [scanListName, mcStep, ← dedupAppend_append]

/-! ### C6: classification code B -/

/-- C6: the BRD code field equals the `", "`-join of all word-bounded
`[SPZ]\d{5}` matches over the ordered scan (list names, then per task its
name and string custom fields), deduplicated in first-seen order; the
deduplicated collection never contains duplicates. -/
theorem C6_brd_codes_dedup_ordered (pdParse : String → Bool) (today : Nat)
    (lists : List ListItem) :
    (scan_folder_metadata pdParse today lists).brd_code
      = String.intercalate ", " (dedupAppend [] (allBrdCodes lists)) ∧
    (dedupAppend [] (allBrdCodes lists)).Nodup := by
  constructor
  · unfold scan_folder_metadata
    dsimp only
    rw [pass1_state, pass2_state]
    dsimp only
    rw [dedupAppend_append]
    unfold allBrdCodes folderTexts tBrd
    simp only [List.flatMap_append, List.flatMap_cons, List.flatMap_map,
      List.flatMap_assoc, Function.comp, initState]
  · exact dedupAppend_nodup _ _ List.nodup_nil

/-! ### C10: exact labels strictly prioritized over fuzzy matches -/

/-- C10: for both the record and the meeting field, the selected date is
the `pick_best_iso` of the exact-label candidate pool whenever that is
nonempty-valued, and the fuzzy pool influences the result only when the
exact pool's selection is empty — demonstrated concretely on a folder
where the fuzzy pool holds an open, nearer candidate (2025-06-01) and yet
the exact pool's closed 2099-01-01 candidate wins. -/
theorem C10_exact_over_fuzzy (pdParse : String → Bool) (today : Nat)
    (lists : List ListItem) :
    ((scan_folder_metadata pdParse today lists).record_date
      = if pick_best_iso today (folderPool (exactCand "record") lists) ≠ "" then
          pick_best_iso today (folderPool (exactCand "record") lists)
        else pick_best_iso today (folderPool (fuzzyCand pdParse "record") lists)) ∧
    ((scan_folder_metadata pdParse today lists).meeting_date
      = if pick_best_iso today (folderPool (exactCand "meeting") lists) ≠ "" then
          pick_best_iso today (folderPool (exactCand "meeting") lists)
        else pick_best_iso today (folderPool (fuzzyCand pdParse "meeting") lists)) ∧
    (scan_folder_metadata pdDateModel 20250301 folderExactVsFuzzy).record_date
      = "2099-01-01" ∧
    pick_best_iso 20250301
      (folderPool (fuzzyCand pdDateModel "record") folderExactVsFuzzy)
      = "2025-06-01" := by
  refine ⟨?_, ?_, ?_, ?_⟩
  · unfold scan_folder_metadata
    dsimp only
    rw [pass1_state, pass2_state]
    simp [initState]
  · unfold scan_folder_metadata
    dsimp only
    rw [pass1_state, pass2_state]
    simp [initState]
  · decide
  · decide

/-! ### C9: the date normalizer -/

theorem civilFromDays_md_range (z : Int) :
    1 ≤ (civilFromDays z).2.1 ∧ (civilFromDays z).2.1 ≤ 12 ∧
    1 ≤ (civilFromDays z).2.2 ∧ (civilFromDays z).2.2 ≤ 31 := by
  unfold civilFromDays
  dsimp only
  split <;> omega

theorem civilFromDays_y_le (z : Int) (h1 : -106753 ≤ z) (h2 : z ≤ 106751) :
    (civilFromDays z).1.toNat ≤ 9999 := by
  unfold civilFromDays
  dsimp only
  split <;> omega

theorem digitChar10_lt10 (r : Nat) (h : r < 10) :
    isDigitC (digitChar10 r) = true ∧ (digitChar10 r).toNat = 48 + r := by
  interval_cases r <;> exact ⟨rfl, rfl⟩

theorem numToChars4_eq (n : Nat) : numToChars 4 n =
    [digitChar10 (n / 1000 % 10), digitChar10 (n / 100 % 10),
     digitChar10 (n / 10 % 10), digitChar10 (n % 10)] := by
  simp [numToChars, Nat.div_div_eq_div_mul]

theorem numToChars2_eq (n : Nat) : numToChars 2 n =
    [digitChar10 (n / 10 % 10), digitChar10 (n % 10)] := by
  simp [numToChars]

theorem parse_isoFormatN (y m d : Nat) (hy : y ≤ 9999) (hm1 : 1 ≤ m)
    (hm2 : m ≤ 12) (hd1 : 1 ≤ d) (hd2 : d ≤ 31) :
    parseIsoDateL (isoFormatN (y * 10000 + m * 100 + d)).toList
      = some (y * 10000 + m * 100 + d) := by
  have hkey1 : (y * 10000 + m * 100 + d) / 10000 = y := by omega
  have hkey2 : (y * 10000 + m * 100 + d) / 100 % 100 = m := by omega
  have hkey3 : (y * 10000 + m * 100 + d) % 100 = d := by omega
  unfold isoFormatN
  rw [hkey1, hkey2, hkey3, numToChars4_eq, numToChars2_eq, numToChars2_eq]
  have htl : ∀ l : List Char, (String.mk l).toList = l := fun l => rfl
  rw [htl]
  simp only [List.cons_append, List.nil_append]
  unfold parseIsoDateL
  have h1 := digitChar10_lt10 (y / 1000 % 10) (Nat.mod_lt _ (by norm_num))
  have h2 := digitChar10_lt10 (y / 100 % 10) (Nat.mod_lt _ (by norm_num))
  have h3 := digitChar10_lt10 (y / 10 % 10) (Nat.mod_lt _ (by norm_num))
  have h4 := digitChar10_lt10 (y % 10) (Nat.mod_lt _ (by norm_num))
  have h5 := digitChar10_lt10 (m / 10 % 10) (Nat.mod_lt _ (by norm_num))
  have h6 := digitChar10_lt10 (m % 10) (Nat.mod_lt _ (by norm_num))
  have h7 := digitChar10_lt10 (d / 10 % 10) (Nat.mod_lt _ (by norm_num))
  have h8 := digitChar10_lt10 (d % 10) (Nat.mod_lt _ (by norm_num))
  dsimp only
  have hc1 : (decide ('-' = '-') && decide ('-' = '-') &&
      [digitChar10 (y / 1000 % 10), digitChar10 (y / 100 % 10),
       digitChar10 (y / 10 % 10), digitChar10 (y % 10),
       digitChar10 (m / 10 % 10), digitChar10 (m % 10),
       digitChar10 (d / 10 % 10), digitChar10 (d % 10)].all isDigitC) = true := by
    simp [h1.1, h2.1, h3.1, h4.1, h5.1, h6.1, h7.1, h8.1]
  rw [if_pos hc1]
  have hmo : digitsToNat [digitChar10 (m / 10 % 10), digitChar10 (m % 10)] = m := by
    simp only [digitsToNat, List.foldl_cons, List.foldl_nil, h5.2, h6.2]
    omega
  have hdy : digitsToNat [digitChar10 (d / 10 % 10), digitChar10 (d % 10)] = d := by
    simp only [digitsToNat, List.foldl_cons, List.foldl_nil, h7.2, h8.2]
    omega
  have hyy : digitsToNat [digitChar10 (y / 1000 % 10), digitChar10 (y / 100 % 10),
      digitChar10 (y / 10 % 10), digitChar10 (y % 10)] = y := by
    simp only [digitsToNat, List.foldl_cons, List.foldl_nil, h1.2, h2.2, h3.2, h4.2]
    omega
  rw [hmo, hdy, hyy]
  have hc2 : (decide (1 ≤ m) && decide (m ≤ 12) && decide (1 ≤ d) && decide (d ≤ 31))
      = true := by
    simp [hm1, hm2, hd1, hd2]
  rw [if_pos hc2]

/-- C9: for every input value the embedded `iso_from_ms` either yields a
well-formed ISO `YYYY-MM-DD` calendar date (one `parseIsoDateL` accepts)
or no value; a task whose due value has no parseable date contributes
nothing — the scan leaves the date fields empty rather than halting; and
the calendar date is taken in the reference zone: epoch 0 maps to
1969-12-31 (Los Angeles), not the UTC date 1970-01-01. -/
theorem C9_normalizer_total_wellformed :
    (∀ v s, iso_from_ms v = some s → ∃ n, parseIsoDateL s.toList = some n) ∧
    (scan_folder_metadata pdDateModel 20250301 folderUnparseableDue).record_date
      = "" ∧
    (scan_folder_metadata pdDateModel 20250301 folderUnparseableDue).meeting_date
      = "" ∧
    iso_from_ms "0" = some "1969-12-31" := by
  refine ⟨?_, by decide, by decide, by decide⟩
  intro v s h
  unfold iso_from_ms at h
  match hp : parseIntPy v with
  | none => rw [hp] at h; simp at h
  | some ms =>
    rw [hp] at h
    dsimp only at h
    by_cases hb : -PD_MS_BOUND ≤ ms ∧ ms ≤ PD_MS_BOUND
    case neg =>
      rw [if_neg hb] at h
      simp at h
    case pos =>
      rw [if_pos hb] at h
      simp only [Option.some.injEq] at h
      subst h
      unfold msToLAIso
      dsimp only
      have hoff : laOffsetMs ms = -25200000 ∨ laOffsetMs ms = -28800000 := by
        unfold laOffsetMs
        dsimp only
        split
        · exact Or.inl rfl
        · exact Or.inr rfl
      unfold PD_MS_BOUND at hb
      have hld1 : -106753 ≤ (ms + laOffsetMs ms) / 86400000 := by
        rcases hoff with ho | ho <;> rw [ho] <;> omega
      have hld2 : (ms + laOffsetMs ms) / 86400000 ≤ 106751 := by
        rcases hoff with ho | ho <;> rw [ho] <;> omega
      obtain ⟨hm1, hm2, hd1, hd2⟩ :=
        civilFromDays_md_range ((ms + laOffsetMs ms) / 86400000)
      have hy := civilFromDays_y_le _ hld1 hld2
      exact ⟨_, parse_isoFormatN _ _ _ hy hm1 hm2 hd1 hd2⟩

/-! ### C7: the adjournment date field (modelled from the spec) -/

/-- C7 (spec-modelled): every output JobRecord carries an
`adjournment_date` selected by the same exact-first, `pick_best_iso`
process as the other date fields, and the adjournment label matcher
accepts every title containing both a stem of "ADJOURN" and a stem of
"MEETING" anywhere (e.g. "Meeting Adjourned Date"). -/
theorem C7_adjournment_field (pdParse : String → Bool) (today : Nat)
    (title : String) (lists : List ListItem) :
    (∀ t : String, containsStem (strL "ADJOURN") t = true →
      containsStem (strL "MEETING") t = true →
      is_adjourn_label pdParse t = true) ∧
    (∀ r ∈ buildRowsAdj pdParse today title lists,
      r.adjournment_date = adjSelect pdParse today lists) ∧
    is_adjourn_label pdDateModel "Meeting Adjourned Date" = true := by
  refine ⟨?_, ?_, by decide⟩
  · intro t h1 h2
    unfold is_adjourn_label
    by_cases ht : t = ""
    · subst ht
      simp [containsStem, stemAux] at h1
    · rw [if_neg ht]
      simp [h1, h2]
  · intro r hr
    unfold buildRowsAdj at hr
    obtain ⟨p, _, hp2⟩ := List.mem_map.1 hr
    rw [← hp2]

/-- C7 witness: the theorem applied to a concrete title with both stems
and to the concrete row built for a folder holding an open
"Meeting Adjourned Date" task due 2025-06-01. -/
theorem C7_adjournment_field_witness :
    is_adjourn_label pdDateModel "Adjourned Annual Meeting" = true ∧
    ((buildRowsAdj pdDateModel 20250301 "123456 Fund" folderAdj).head!).adjournment_date
      = adjSelect pdDateModel 20250301 folderAdj ∧
    adjSelect pdDateModel 20250301 folderAdj = "2025-06-01" := by
  refine ⟨?_, ?_, by decide⟩
  · exact (C7_adjournment_field pdDateModel 20250301 "" []).1
      "Adjourned Annual Meeting" (by decide) (by decide)
  · exact (C7_adjournment_field pdDateModel 20250301 "123456 Fund" folderAdj).2.1
      _ (List.head!_mem_self (by decide))

/-- C9 witness: the well-formedness conjunct applied at the concrete
input `"0"`. -/
theorem C9_normalizer_total_wellformed_witness :
    iso_from_ms "0" = some "1969-12-31" ∧
    ∃ n, parseIsoDateL (String.toList "1969-12-31") = some n := by
  refine ⟨by decide, ?_⟩
  exact C9_normalizer_total_wellformed.1 "0" "1969-12-31" (by decide)

/-! ### C2: word-boundary machinery for the strict label matcher -/

theorem prevOpt_cons (prev : Option Char) (c : Char) (a : List Char) :
    prevOpt prev (c :: a) = prevOpt (some c) a := by
  unfold prevOpt
  match a with
  | [] => rfl
  | d :: t =>
    rw [List.getLast?_cons_cons]
    rw [List.getLast?_eq_getLast (d :: t) (by simp)]

theorem matchCI_some_iff {tk l r : List Char} :
    matchCI tk l = some r ↔
      ∃ w, l = w ++ r ∧ List.Forall₂ (fun p c => chMatchCI p c = true) tk w := by
  induction tk generalizing l with
  | nil =>
    simp only [matchCI, Option.some.injEq]
    constructor
    · intro h
      exact ⟨[], by simp [h], List.Forall₂.nil⟩
    · rintro ⟨w, hw, hf⟩
      cases hf
      simpa using hw
  | cons p ps ih =>
    match l with
    | [] =>
      simp only [matchCI]
      constructor
      · intro h; exact absurd h (by simp)
      · rintro ⟨w, hw, hf⟩
        cases hf
        simp at hw
    | c :: cs =>
      simp only [matchCI]
      by_cases hpc : chMatchCI p c = true
      · rw [if_pos hpc, ih]
        constructor
        · rintro ⟨w, hw, hf⟩
          exact ⟨c :: w, by simp [hw], List.Forall₂.cons hpc hf⟩
        · rintro ⟨w, hw, hf⟩
          match w, hf with
          | c2 :: w2, List.Forall₂.cons h1 h2 =>
            simp only [List.cons_append, List.cons.injEq] at hw
            exact ⟨w2, hw.2, h2⟩
      · rw [if_neg hpc]
        constructor
        · intro h; exact absurd h (by simp)
        · rintro ⟨w, hw, hf⟩
          match w, hf with
          | c2 :: w2, List.Forall₂.cons h1 h2 =>
            simp only [List.cons_append, List.cons.injEq] at hw
            rw [hw.1] at hpc
            exact absurd h1 hpc

theorem chMatchCI_word {p c : Char} (h : chMatchCI p c = true)
    (hp : isUpperAlphaC p = true) : isWordC c = true := by
  unfold chMatchCI at h
  unfold isUpperAlphaC at hp
  unfold isWordC
  simp only [Bool.or_eq_true, Bool.and_eq_true, decide_eq_true_eq] at h ⊢
  simp only [Bool.and_eq_true, decide_eq_true_eq] at hp
  rcases h with h | h
  · subst h
    omega
  · omega

theorem isSepC_not_word {c : Char} (h : isSepC c = true) : isWordC c = false := by
  unfold isSepC isSpaceC at h
  unfold isWordC
  simp only [Bool.or_eq_true, Bool.and_eq_true, decide_eq_true_eq] at h
  simp only [Bool.or_eq_false_iff, Bool.and_eq_false_iff,
    decide_eq_false_iff_not]
  omega

theorem isSpaceC_not_word {c : Char} (h : isSpaceC c = true) : isWordC c = false := by
  apply isSepC_not_word
  unfold isSepC
  rw [h]
  rfl

/-- Soundness half of the scanner characterization: a decomposition with
word boundaries yields a hit. -/
theorem wbAux_of_decomp {toks : List (List Char)} {tk w : List Char}
    (htk : tk ∈ toks) (hne : tk ≠ []) :
    ∀ (a : List Char) (prev : Option Char) (r : List Char),
      List.Forall₂ (fun p c => chMatchCI p c = true) tk w →
      boundaryB (prevOpt prev a) = true → boundaryA r = true →
      wbAux toks prev (a ++ w ++ r) = true := by
  intro a
  induction a with
  | nil =>
    intro prev r hf hb ha
    cases hf with
    | nil => exact absurd rfl hne
    | cons h1 h2 =>
      rename_i p c ps w2
      simp only [List.nil_append, List.cons_append, wbAux, Bool.or_eq_true]
      left
      rw [Bool.and_eq_true]
      refine ⟨by simpa [prevOpt] using hb, ?_⟩
      unfold tokenHitAt
      rw [List.any_eq_true]
      refine ⟨p :: ps, htk, ?_⟩
      have hm : matchCI (p :: ps) ((c :: w2) ++ r) = some r :=
        matchCI_some_iff.2 ⟨c :: w2, rfl, List.Forall₂.cons h1 h2⟩
      simp only [List.cons_append] at hm
      simp only [List.append_eq]
      rw [hm]
      exact ha
  | cons x a2 ih =>
    intro prev r hf hb ha
    simp only [List.cons_append, wbAux, Bool.or_eq_true]
    right
    rw [prevOpt_cons] at hb
    exact ih (some x) r hf hb ha

/-- Completeness half of the scanner characterization: a hit yields a
word-bounded decomposition. -/
theorem wbAux_decomp {toks : List (List Char)} :
    ∀ (prev : Option Char) (l : List Char), wbAux toks prev l = true →
      ∃ a tk w r, tk ∈ toks ∧ l = a ++ w ++ r ∧
        List.Forall₂ (fun p c => chMatchCI p c = true) tk w ∧
        boundaryB (prevOpt prev a) = true ∧ boundaryA r = true := by
  intro prev l
  induction l generalizing prev with
  | nil => intro h; simp [wbAux] at h
  | cons c cs ih =>
    intro h
    simp only [wbAux, Bool.or_eq_true, Bool.and_eq_true] at h
    rcases h with ⟨hb, hhit⟩ | hrec
    · unfold tokenHitAt at hhit
      rw [List.any_eq_true] at hhit
      obtain ⟨tk, htk, hm⟩ := hhit
      match hmc : matchCI tk (c :: cs) with
      | some r =>
        rw [hmc] at hm
        obtain ⟨w, hw, hf⟩ := matchCI_some_iff.1 hmc
        exact ⟨[], tk, w, r, htk, by simpa using hw, hf, by simpa [prevOpt] using hb, hm⟩
      | none => rw [hmc] at hm; exact absurd hm (by simp)
    · obtain ⟨a, tk, w, r, htk, hl, hf, hb, ha⟩ := ih (some c) hrec
      refine ⟨c :: a, tk, w, r, htk, by simp [hl], hf, ?_, ha⟩
      rw [prevOpt_cons]
      exact hb

theorem matchCI_append {tk l r : List Char} (h : matchCI tk l = some r) :
    ∃ w, l = w ++ r :=
  (matchCI_some_iff.1 h).imp fun _ hw => hw.1

theorem tryLabelAt_decomp {label l r : List Char} (h : tryLabelAt label l = some r) :
    (∃ pre, l = pre ++ r) ∧ boundaryA r = true := by
  unfold tryLabelAt at h
  match h1 : matchCI label l with
  | none =>
    rw [h1] at h
    exact absurd h (by simp)
  | some r1 =>
    rw [h1] at h
    dsimp only at h
    match h2 : matchCI (strL "DATE") (r1.dropWhile isSpaceC) with
    | none =>
      rw [h2] at h
      exact absurd h (by simp)
    | some r2 =>
      rw [h2] at h
      dsimp only at h
      by_cases hba : boundaryA r2 = true
      · rw [if_pos hba] at h
        simp only [Option.some.injEq] at h
        subst h
        obtain ⟨w1, hw1⟩ := matchCI_append h1
        obtain ⟨w2, hw2⟩ := matchCI_append h2
        refine ⟨⟨w1 ++ r1.takeWhile isSpaceC ++ w2, ?_⟩, hba⟩
        rw [hw1]
        have hsplit : r1 = r1.takeWhile isSpaceC ++ (w2 ++ r2) := by
          conv_lhs => rw [← List.takeWhile_append_dropWhile isSpaceC r1]
          rw [hw2]
        conv_lhs => rw [hsplit]
        simp [List.append_assoc]
      · rw [if_neg hba] at h
        exact absurd h (by simp)

theorem labelSearchAux_decomp {label : List Char} :
    ∀ (prev : Option Char) (l r : List Char),
      labelSearchAux label prev l = some r →
      (∃ pre, l = pre ++ r) ∧ boundaryA r = true := by
  intro prev l
  induction l generalizing prev with
  | nil => intro r h; simp [labelSearchAux] at h
  | cons c cs ih =>
    intro r h
    unfold labelSearchAux at h
    by_cases hbd : boundaryB prev = true
    · rw [if_pos hbd] at h
      match h1 : tryLabelAt label (c :: cs) with
      | some r2 =>
        rw [h1] at h
        simp only [Option.some.injEq] at h
        subst h
        exact tryLabelAt_decomp h1
      | none =>
        rw [h1] at h
        simp only at h
        obtain ⟨⟨pre, hpre⟩, hba⟩ := ih (some c) r h
        exact ⟨⟨c :: pre, by simp [hpre]⟩, hba⟩
    · rw [if_neg hbd] at h
      simp only at h
      obtain ⟨⟨pre, hpre⟩, hba⟩ := ih (some c) r h
      exact ⟨⟨c :: pre, by simp [hpre]⟩, hba⟩

theorem rtrimWS_decomp (l : List Char) :
    ∃ w, l = rtrimWS l ++ w ∧ ∀ c ∈ w, isSpaceC c = true := by
  refine ⟨(l.reverse.takeWhile isSpaceC).reverse, ?_, ?_⟩
  · unfold rtrimWS
    rw [← List.reverse_append, List.takeWhile_append_dropWhile, List.reverse_reverse]
  · intro c hc
    rw [List.mem_reverse] at hc
    exact List.mem_takeWhile_imp hc

theorem blockToks_facts : ∀ tk ∈ BLOCK_TOKS, tk ≠ [] ∧
    ∀ c ∈ tk, isUpperAlphaC c = true := by decide

/-- Lifting a blocker hit in the computed tail to a blocker hit on the
whole title: the tail sits inside the title with a non-word (or
match-boundary) character on each side. -/
theorem blocker_in_tail_lifts {label T rest : List Char}
    (hsearch : labelSearchAux label none T = some rest)
    (hwb : wbAux BLOCK_TOKS none (tailAfter rest) = true) :
    wbAux BLOCK_TOKS none T = true := by
  obtain ⟨⟨pre, hT⟩, hbA⟩ := labelSearchAux_decomp none T rest hsearch
  obtain ⟨a, tk, w, r, htk, htail, hf, hbnd, hra⟩ := wbAux_decomp none _ hwb
  obtain ⟨hne, hupper⟩ := blockToks_facts tk htk
  have hwne : w ≠ [] := by
    intro hw
    subst hw
    cases hf
    exact hne rfl
  obtain ⟨c0, w2, hw⟩ : ∃ c0 w2, w = c0 :: w2 := by
    match w, hwne with
    | c0 :: w2, _ => exact ⟨c0, w2, rfl⟩
  have hc0word : isWordC c0 = true := by
    subst hw
    cases hf with
    | cons h1 h2 =>
      rename_i p ps
      exact chMatchCI_word h1 (hupper p (List.mem_cons_self _ _))
  -- rest = sp ++ (tail ++ wsuf), sp all separators, wsuf all whitespace
  have hsp : rest = rest.takeWhile isSepC ++ rest.dropWhile isSepC :=
    (List.takeWhile_append_dropWhile _ _).symm
  obtain ⟨wsuf, hdw, hwsuf⟩ := rtrimWS_decomp (rest.dropWhile isSepC)
  have hrest : rest = rest.takeWhile isSepC ++ (tailAfter rest ++ wsuf) := by
    conv_lhs => rw [hsp]
    rw [hdw]
    unfold tailAfter
    rfl
  have hTfull : T = (pre ++ rest.takeWhile isSepC ++ a) ++ w ++ (r ++ wsuf) :=
    calc T = pre ++ rest := hT
    _ = pre ++ (rest.takeWhile isSepC ++ (tailAfter rest ++ wsuf)) := by
        rw [← hrest]
    _ = pre ++ (rest.takeWhile isSepC ++ ((a ++ w ++ r) ++ wsuf)) := by
        rw [htail]
    _ = (pre ++ rest.takeWhile isSepC ++ a) ++ w ++ (r ++ wsuf) := by
        simp [List.append_assoc]
  rw [hTfull]
  apply wbAux_of_decomp htk hne _ none (r ++ wsuf) hf
  · -- left boundary of the assembled occurrence
    cases hcase : a with
    | cons x a2 =>
      rw [hcase] at hbnd
      rcases List.eq_nil_or_concat (x :: a2) with hnil | ⟨ys, z, hxz⟩
      · exact absurd hnil (by simp)
      · rw [List.concat_eq_append] at hxz
        rw [hxz] at hbnd ⊢
        have hassoc : pre ++ rest.takeWhile isSepC ++ (ys ++ [z])
            = (pre ++ rest.takeWhile isSepC ++ ys) ++ [z] := by
          simp [List.append_assoc]
        rw [hassoc]
        unfold prevOpt at hbnd ⊢
        rw [List.getLast?_concat] at hbnd ⊢
        exact hbnd
    | nil =>
      match hsp2 : rest.takeWhile isSepC with
      | s :: sp2 =>
        -- last stripped separator is not a word character
        have hsub : ∀ c ∈ s :: sp2, isSepC c = true := by
          intro c hc
          have hcm : c ∈ rest.takeWhile isSepC := by
            rw [hsp2]
            exact hc
          exact List.mem_takeWhile_imp hcm
        rcases List.eq_nil_or_concat (s :: sp2) with hnil | ⟨ys, z, hxz⟩
        · exact absurd hnil (by simp)
        · rw [List.concat_eq_append] at hxz
          have hz : isSepC z = true := hsub z (by rw [hxz]; simp)
          rw [hxz, List.append_nil]
          have hassoc : pre ++ (ys ++ [z]) = (pre ++ ys) ++ [z] := by
            simp [List.append_assoc]
          rw [hassoc]
          unfold prevOpt
          rw [List.getLast?_concat]
          simp [boundaryB, isSepC_not_word hz]
      | [] =>
        -- no separators were stripped: the match boundary after the label
        -- would face the blocker's word character — impossible
        exfalso
        have hrest2 : rest = tailAfter rest ++ wsuf := by
          conv_lhs => rw [hrest]
          rw [hsp2]
          rfl
        rw [hcase] at htail
        rw [htail, hw] at hrest2
        simp only [List.nil_append, List.cons_append] at hrest2
        rw [hrest2] at hbA
        simp [boundaryA, hc0word] at hbA
  · -- right boundary of the assembled occurrence
    match r, hra with
    | c :: r2, hra =>
      simpa [boundaryA] using hra
    | [], _ =>
      match wsuf, hwsuf with
      | [], _ => rfl
      | c :: ws2, hwsuf =>
        have hcs : isSpaceC c = true := hwsuf c (by simp)
        simp only [List.nil_append]
        simp [boundaryA, isSpaceC_not_word hcs]

theorem strict_false_of_block {pdParse : String → Bool} {title kind : String}
    (h : wbAux BLOCK_TOKS none title.toList = true) :
    is_label_task_strict pdParse title kind = false := by
  unfold is_label_task_strict
  by_cases ht : title = ""
  · subst ht
    simp [wbAux] at h
  · rw [if_neg ht, if_pos h]

/-- C2: the strict label matcher rejects every title in which the full
title — or the tail after the label, which always lifts to the full
title — contains a word-bounded, case-insensitive blocker token
(`RANGE|WINDOW|THRU|THROUGH|TO|BETWEEN|FROM`); it accepts
`"Record Date"`, rejects `"Record Date Range"`, accepts
`"Record Date: 4/1/2025"` whenever the date parser accepts the tail
(as `pd.to_datetime` does), and rejects `"Record Date File"`. -/
theorem C2_strict_label_matcher :
    (∀ (pdParse : String → Bool) (kind title : String),
      wbContains BLOCK_TOKS title = true →
      is_label_task_strict pdParse title kind = false) ∧
    (∀ (pdParse : String → Bool) (kind title : String) (rest : List Char),
      labelSearchAux (labelFor kind) none title.toList = some rest →
      wbAux BLOCK_TOKS none (tailAfter rest) = true →
      is_label_task_strict pdParse title kind = false) ∧
    is_label_task_strict pdDateModel "Record Date" "record" = true ∧
    is_label_task_strict pdDateModel "Record Date Range" "record" = false ∧
    (∀ pdParse : String → Bool, pdParse "4/1/2025" = true →
      is_label_task_strict pdParse "Record Date: 4/1/2025" "record" = true) ∧
    is_label_task_strict pdDateModel "Record Date File" "record" = false := by
  refine ⟨?_, ?_, by decide, by decide, ?_, by decide⟩
  · intro pdParse kind title h
    exact strict_false_of_block h
  · intro pdParse kind title rest hs hwb
    exact strict_false_of_block (blocker_in_tail_lifts hs hwb)
  · intro pdParse hpd
    have hred : is_label_task_strict pdParse "Record Date: 4/1/2025" "record"
        = (if pdParse "4/1/2025" = true then true
           else placeholderMatch (strL "4/1/2025")) := rfl
    rw [hred, if_pos hpd]

/-- C2 witness: the rejection conjuncts applied at concrete titles with a
blocker in the full title and in the tail, and the acceptance conjunct
applied to the executable date-parser model. -/
theorem C2_strict_label_matcher_witness :
    is_label_task_strict pdDateModel "Proxy window for Record Date" "record"
      = false ∧
    is_label_task_strict pdDateModel "Record Date: TO BE SET" "record" = false ∧
    is_label_task_strict pdDateModel "Record Date: 4/1/2025" "record" = true := by
  refine ⟨?_, ?_, ?_⟩
  · exact C2_strict_label_matcher.1 pdDateModel "record" _ (by decide)
  · exact C2_strict_label_matcher.2.1 pdDateModel "record" "Record Date: TO BE SET"
      (strL ": TO BE SET") (by decide) (by decide)
  · exact C2_strict_label_matcher.2.2.2.2.1 pdDateModel (by decide)

end ProxyList
